import Mathlib

/-!
# Verification of the ZenRead PDF library and reader

Shallow embedding of the TypeScript sources of the `raz_reading` repository:

* `src/types.ts` — the `StoredFile` / `ReadingHistory` / `ChatMessage` records;
* `src/components/Sidebar.tsx` — the file-tree projector (`treeData` memo) and
  its recursive child sort (`sortNodes`);
* `src/App.tsx` — the application shell (`handleFileDelete`,
  `handleFolderDelete`, `handlePageChange`);
* the alternate application shell stored after the separator in
  `src/services/geminiService.ts` (its own `handleFolderDelete` and
  `handlePageChange`);
* `src/services/geminiService.ts` — `generateAIResponse`;
* `src/components/ChatPanel.tsx` — `handleSend`;
* `src/components/PDFReader.tsx` — `changePage`;
* the IndexedDB service (`src/unnamed/part_000`) — `deleteFile`,
  `updateHistory` (a keyed object store with `keyPath` semantics).

JavaScript standard-library functions used by the sources are embedded with
their ECMAScript semantics on `List Char` / `String`:
`String.prototype.split('/')`, `String.prototype.startsWith`,
`String.prototype.replace(/^\//, '')`, `String.prototype.trim`, and the falsy
coercions of `||` on strings.  `localeCompare` (locale dependent in a browser)
is modelled as code-point lexicographic comparison, the case-sensitive
collation the specification prescribes.  `Array.prototype.sort`, which is
required to be a stable sort, is modelled by `List.insertionSort`, a stable
sort with the same comparator.
-/

/-! ## JavaScript string primitives -/

/-- `s.split('/')` from ECMAScript, on an explicit character list: always
returns at least one (possibly empty) segment, empty input yields `[""]`,
adjacent separators yield empty segments. -/
def splitSegs (sep : Char) : List Char → List String
  | [] => [""]
  | c :: rest =>
    if c = sep then "" :: splitSegs sep rest
    else
      match splitSegs sep rest with
      | [] => [String.mk [c]]
      | s :: ss => String.mk (c :: s.data) :: ss

/-- `path.replace(/^\//, '')` — removes at most one leading slash. -/
def stripLeadingSlash (s : String) : String :=
  match s.data with
  | '/' :: rest => String.mk rest
  | _ => s

/-- `s.startsWith(pre)` from ECMAScript. -/
def jsStartsWith (s pre : String) : Bool :=
  pre.data.isPrefixOf s.data

/-- Strict code-point lexicographic comparison of character lists. -/
def charsLt : List Char → List Char → Bool
  | [], [] => false
  | [], _ :: _ => true
  | _ :: _, [] => false
  | a :: as, b :: bs => if a < b then true else if b < a then false else charsLt as bs

/-- `a.localeCompare(b)`, modelled as case-sensitive code-point comparison
(the collation stated by the specification). -/
def localeCompare (a b : String) : Int :=
  if charsLt a.data b.data then -1 else if charsLt b.data a.data then 1 else 0

/-- `x || dflt` on a possibly-absent JavaScript string: both `undefined`/`null`
and the empty string are falsy. -/
def jsOrElse (s : Option String) (dflt : String) : String :=
  match s with
  | some v => if v = "" then dflt else v
  | none => dflt

/-- `s.trim()` from ECMAScript: strip leading and trailing whitespace. -/
def jsTrim (s : String) : String :=
  String.mk
    (((s.data.dropWhile Char.isWhitespace).reverse.dropWhile
        Char.isWhitespace).reverse)

/-- Truthiness test of an optional JavaScript string (`!s`). -/
def jsFalsy (s : Option String) : Bool :=
  match s with
  | some v => v = ""
  | none => true

/-! ## Data model (`src/types.ts`) -/

/-- `StoredFile` of `src/types.ts`.  The `data : ArrayBuffer` payload is kept
as an opaque byte list; it is never inspected by the verified code. -/
structure StoredFile where
  id : String
  name : String
  type : String
  size : Nat
  data : List Nat
  createdAt : Nat
  path : String
deriving DecidableEq, Repr

/-- `ReadingHistory` of `src/types.ts` (`totalPages` is optional). -/
structure ReadingHistory where
  fileId : String
  lastPage : Nat
  lastReadAt : Nat
  totalPages : Option Nat
deriving DecidableEq, Repr

/-- `ChatMessage` of `src/types.ts`. -/
structure ChatMessage where
  id : String
  role : String
  text : String
  isLoading : Option Bool
  timestamp : Nat
deriving DecidableEq, Repr

/-! ## The file-tree projector (`treeData` in `src/components/Sidebar.tsx`) -/

/-- The `type` discriminator of a `TreeNode`. -/
inductive NodeKind where
  | folder
  | file
deriving DecidableEq, Repr

/-- `TreeNode` of `src/components/Sidebar.tsx` (`id`, `name`, `path`, `type`,
`children`, `fileId?`, `size?`). -/
inductive TreeNode where
  | mk (id : String) (name : String) (path : String) (kind : NodeKind)
       (children : List TreeNode) (fileId : Option String) (size : Option Nat)
deriving Repr

def TreeNode.id : TreeNode → String
  | .mk i _ _ _ _ _ _ => i

def TreeNode.name : TreeNode → String
  | .mk _ n _ _ _ _ _ => n

def TreeNode.path : TreeNode → String
  | .mk _ _ p _ _ _ _ => p

def TreeNode.kind : TreeNode → NodeKind
  | .mk _ _ _ k _ _ _ => k

def TreeNode.children : TreeNode → List TreeNode
  | .mk _ _ _ _ cs _ _ => cs

def TreeNode.fileId : TreeNode → Option String
  | .mk _ _ _ _ _ f _ => f

def TreeNode.nodeSize : TreeNode → Option Nat
  | .mk _ _ _ _ _ _ s => s

def TreeNode.setChildren : TreeNode → List TreeNode → TreeNode
  | .mk i n p k _ f s, cs => .mk i n p k cs f s

/-- The predicate of `currentLevel.find(n => n.name === part && n.type === …)`. -/
def nodeMatch (part : String) (wantFile : Bool) (n : TreeNode) : Bool :=
  n.name = part && n.kind = (if wantFile then .file else .folder)

/-- Replace the first element satisfying `p` by its image under `g` — the
functional rendering of finding a node with `Array.prototype.find` and then
mutating it in place. -/
def updateFirst (p : TreeNode → Bool) (g : TreeNode → TreeNode) :
    List TreeNode → List TreeNode
  | [] => []
  | n :: ns => if p n then g n :: ns else n :: updateFirst p g ns

/-- `path` accumulation: `currentPath = currentPath ? currentPath + '/' + part : part`. -/
def extendPath (currentPath part : String) : String :=
  if currentPath = "" then part else currentPath ++ "/" ++ part

/-- The `parts.forEach` walk of `treeData`: insert one stored file, whose
remaining path segments are `parts`, into the forest `level`.  For each
segment a node with matching `name` and `type` is looked up at the current
level; if absent a fresh node is pushed at the end; for a non-final segment
the walk descends into the (found or fresh) folder's children.  Note that a
final segment whose file node already exists pushes nothing: the record is
dropped. -/
def insertParts (file : StoredFile) : String → List String → List TreeNode → List TreeNode
  | _, [], level => level
  | currentPath, part :: rest, level =>
    let isFile := rest.isEmpty
    let newPath := extendPath currentPath part
    match level.find? (nodeMatch part isFile) with
    | some _ =>
      if isFile then level
      else updateFirst (nodeMatch part isFile)
        (fun n => n.setChildren (insertParts file newPath rest n.children)) level
    | none =>
      if isFile then
        level ++ [.mk file.id part newPath .file [] (some file.id) (some file.size)]
      else
        level ++ [.mk newPath part newPath .folder (insertParts file newPath rest []) none none]

/-- The comparator of `sortNodes`: equal kinds compare by
`a.name.localeCompare(b.name)`, otherwise folders first. -/
def nodeCmp (a b : TreeNode) : Int :=
  if a.kind = b.kind then localeCompare a.name b.name
  else if a.kind = .folder then -1 else 1

/-- The ordering induced by sorting with `nodeCmp` (comparator result `≤ 0`). -/
def nodeLe (a b : TreeNode) : Prop := nodeCmp a b ≤ 0

instance : DecidableRel nodeLe := fun a b => by
  unfold nodeLe; infer_instance

mutual
/-- Recursive part of `sortNodes`: a node with all levels below it sorted. -/
def sortTree : TreeNode → TreeNode
  | .mk i n p k cs f s => .mk i n p k (List.insertionSort nodeLe (sortEach cs)) f s

/-- `nodes.forEach(node => … sortNodes(node.children))`. -/
def sortEach : List TreeNode → List TreeNode
  | [] => []
  | t :: ts => sortTree t :: sortEach ts
end

/-- `sortNodes` of `src/components/Sidebar.tsx`: sort the level with the
folders-first / name-ascending comparator and recursively sort every node's
children.  (The source sorts the level first and then recurses; since the
comparator reads only `name` and `kind`, which the recursion preserves, the
two orders of operations give the same forest.) -/
def sortChildren (ns : List TreeNode) : List TreeNode :=
  List.insertionSort nodeLe (sortEach ns)

/-- The path segments a stored file is inserted with:
`file.path.replace(/^\//, '').split('/')`. -/
def partsOf (f : StoredFile) : List String :=
  splitSegs '/' (stripLeadingSlash f.path).data

/-- The comparator of `[...files].sort((a, b) => a.path.localeCompare(b.path))`. -/
def fileLe (a b : StoredFile) : Prop := localeCompare a.path b.path ≤ 0

instance : DecidableRel fileLe := fun a b => by
  unfold fileLe; infer_instance

/-- `treeData` of `src/components/Sidebar.tsx`: sort the records by `path`,
insert each into the forest in turn, then recursively sort all levels. -/
def buildTree (files : List StoredFile) : List TreeNode :=
  let sortedFiles := List.insertionSort fileLe files
  let root := sortedFiles.foldl
    (fun level file => insertParts file "" (partsOf file) level) []
  sortChildren root

/-! Sanity examples for the projector on concrete inputs. -/

def mkFile (id path : String) : StoredFile :=
  ⟨id, path, "application/pdf", 0, [], 0, path⟩

example : (buildTree [mkFile "1" "x.pdf"]).map TreeNode.name = ["x.pdf"] := by decide

example :
    (buildTree [mkFile "1" "a.pdf", mkFile "2" "Docs/b.pdf"]).map TreeNode.name
      = ["Docs", "a.pdf"] := by decide

/-! ## Application shell state (`src/App.tsx`) and the IndexedDB service -/

/-- The two object stores of `zenread_db` (`src/unnamed/part_000`): `files`
keyed by `id`, `history` keyed by `fileId`. -/
structure DBState where
  dbFiles : List StoredFile
  dbHistory : List ReadingHistory
deriving DecidableEq, Repr

/-- The in-memory state held by the `App` component: `files`, `history`,
`activeFileId`. -/
structure AppState where
  files : List StoredFile
  history : List ReadingHistory
  activeFileId : Option String
deriving DecidableEq, Repr

/-- `db.put` into a store with `keyPath` (IndexedDB semantics, from the store
declarations in `src/unnamed/part_000`): a record with the same key is
replaced, otherwise the record is appended. -/
def dbPutHistory (store : List ReadingHistory) (h : ReadingHistory) :
    List ReadingHistory :=
  match store with
  | [] => [h]
  | x :: xs => if x.fileId = h.fileId then h :: xs else x :: dbPutHistory xs h

/-- `updateHistory` of the IndexedDB service: build the full replacement
record and `put` it (upsert by `fileId`).  `Date.now()` is passed in as
`now`. -/
def updateHistory (store : List ReadingHistory) (fileId : String) (page : Nat)
    (totalPages : Option Nat) (now : Nat) : List ReadingHistory :=
  dbPutHistory store ⟨fileId, page, now, totalPages⟩

/-- `deleteFile` of the IndexedDB service: delete by key from both stores. -/
def dbDeleteFile (db : DBState) (id : String) : DBState :=
  ⟨db.dbFiles.filter (fun f => f.id ≠ id),
   db.dbHistory.filter (fun h => h.fileId ≠ id)⟩

/-- The `setHistory` updater inside `handlePageChange` of `src/App.tsx`:
replace the record at the index found by `findIndex`, or append a new one. -/
def updateHistoryState (prev : List ReadingHistory) (activeFileId : String)
    (page : Nat) (total : Nat) (now : Nat) : List ReadingHistory :=
  let newItem : ReadingHistory := ⟨activeFileId, page, now, some total⟩
  match prev.findIdx? (fun h => h.fileId = activeFileId) with
  | some i => prev.set i newItem
  | none => prev ++ [newItem]

/-- `handleFileDelete` of `src/App.tsx` (successful path): delete from the
database, filter the in-memory lists, and clear the selection when the
deleted file is the active one. -/
def handleFileDelete (db : DBState) (st : AppState) (id : String) :
    DBState × AppState :=
  (dbDeleteFile db id,
   ⟨st.files.filter (fun f => f.id ≠ id),
    st.history.filter (fun h => h.fileId ≠ id),
    if st.activeFileId = some id then none else st.activeFileId⟩)

/-- `handleFileDelete` with its `try`/`catch`: when `deleteFile` rejects
(`fails id`), the error is caught and logged and no state changes; otherwise
the deletion applies.  `fails` is the oracle saying which ids' database
deletion rejects. -/
def handleFileDeleteF (fails : String → Bool) (db : DBState) (st : AppState)
    (id : String) : DBState × AppState :=
  if fails id then (db, st) else handleFileDelete db st id

/-- The folder-scoped query of `handleFolderDelete` in `src/App.tsx`:
`files.filter(f => f.path.replace(/^\//, '').startsWith(folderPath + '/'))`. -/
def filesUnderApp (files : List StoredFile) (folderPath : String) :
    List StoredFile :=
  files.filter (fun f => jsStartsWith (stripLeadingSlash f.path) (folderPath ++ "/"))

/-- The folder-scoped query of `handleFolderDelete` in the alternate shell
stored in `src/services/geminiService.ts`:
`files.filter(f => f.path === folderPath || f.path.startsWith(folderPath + '/'))`. -/
def filesUnderAlt (files : List StoredFile) (folderPath : String) :
    List StoredFile :=
  files.filter (fun f => f.path = folderPath || jsStartsWith f.path (folderPath ++ "/"))

/-- One iteration of the deletion loop of `handleFolderDelete` in
`src/App.tsx`: run `handleFileDelete` (which catches its own failure) on the
current states and record the id as attempted. -/
def folderDeleteStep (fails : String → Bool)
    (acc : DBState × AppState × List String) (f : StoredFile) :
    DBState × AppState × List String :=
  let r := handleFileDeleteF fails acc.1 acc.2.1 f.id
  (r.1, r.2, acc.2.2 ++ [f.id])

/-- `handleFolderDelete` of `src/App.tsx`: resolve the matched files once,
then `await handleFileDelete(file.id)` for each.  Returns the final states
and, in order, the ids on which a deletion was attempted (i.e.
`handleFileDelete` was invoked).  Because every per-file failure is caught
inside `handleFileDelete`, the loop itself never aborts. -/
def handleFolderDeleteApp (fails : String → Bool) (db : DBState) (st : AppState)
    (folderPath : String) : DBState × AppState × List String :=
  let filesToDelete := filesUnderApp st.files folderPath
  filesToDelete.foldl (folderDeleteStep fails) (db, st, [])

/-- The deletion loop of `handleFolderDelete` in the alternate shell:
`for (const file of filesToDelete) { await deleteFile(file.id); }` with no
`try`/`catch` — a rejection propagates out of the `async` function, so the
loop stops at the first failing id.  Returns the database outcome and the
ids on which `deleteFile` was attempted. -/
def deleteLoopAlt (fails : String → Bool) (db : DBState) :
    List StoredFile → Except String DBState × List String
  | [] => (.ok db, [])
  | f :: fs =>
    if fails f.id then (.error f.id, [f.id])
    else
      let r := deleteLoopAlt fails (dbDeleteFile db f.id) fs
      (r.1, f.id :: r.2)

/-- `handleFolderDelete` of the alternate shell (confirm dialog accepted):
resolve matches, run the abortable loop; the in-memory updates after the
loop run only when no deletion rejected. -/
def handleFolderDeleteAlt (fails : String → Bool) (db : DBState) (st : AppState)
    (folderPath : String) :
    Except String (DBState × AppState) × List String :=
  let filesToDelete := filesUnderAlt st.files folderPath
  match deleteLoopAlt fails db filesToDelete with
  | (.ok db', attempted) =>
    (.ok (db',
      ⟨st.files.filter (fun f => !(filesToDelete.any (fun del => del.id = f.id))),
       st.history,
       if st.activeFileId.any (fun a => filesToDelete.any (fun f => f.id = a))
       then none else st.activeFileId⟩), attempted)
  | (.error e, attempted) => (.error e, attempted)

/-! ## The AI query adapter (`src/services/geminiService.ts`) and the chat
view (`src/components/ChatPanel.tsx`) -/

/-- `AIAnalysisRequest` of `src/types.ts`. -/
structure AIAnalysisRequest where
  text : Option String
  imageBase64 : Option String
  prompt : String
deriving DecidableEq, Repr

/-- One entry of the `parts` array assembled by `generateAIResponse`. -/
inductive GenPart where
  | inlineData (mimeType : String) (data : String)
  | text (s : String)
deriving DecidableEq, Repr

/-- The `parts` array built by `generateAIResponse`: optional page image,
optional context text, then the prompt. -/
def buildParts (request : AIAnalysisRequest) : List GenPart :=
  (if !(jsFalsy request.imageBase64)
   then [.inlineData "image/png" (request.imageBase64.getD "")] else [])
  ++ (if !(jsFalsy request.text)
      then [.text ("Context text from PDF page: \n" ++ request.text.getD "" ++ "\n\n")]
      else [])
  ++ [.text request.prompt]

/-- The outcome of the provider call `ai.models.generateContent`: either a
thrown error carrying an optional `message`, or a response whose `.text` may
be absent or empty. -/
inductive ApiOutcome where
  | thrown (message : Option String)
  | ok (text : Option String)
deriving DecidableEq, Repr

/-- `generateAIResponse` of `src/services/geminiService.ts`.  Every failure
path is inside the single `try`/`catch`, so the function always returns a
string: a missing/empty `API_KEY` throws `"API Key not found"` which the
`catch` turns into `"Error: …"`, a thrown provider error becomes
`"Error: " + (error.message || "Failed to generate response")`, and a
successful response returns `response.text || "No response generated."`. -/
def generateAIResponse (apiKey : Option String) (outcome : ApiOutcome)
    (request : AIAnalysisRequest) : String :=
  if jsFalsy apiKey then
    "Error: " ++ "API Key not found"
  else
    let _parts := buildParts request
    match outcome with
    | .thrown msg => "Error: " ++ jsOrElse msg "Failed to generate response"
    | .ok t => jsOrElse t "No response generated."

/-- `handleSend` of `src/components/ChatPanel.tsx` run to completion: append
the user message and a loading placeholder with the fresh id `modelMsgId`,
then replace the placeholder's text by the string returned from the AI call.
`responseText` is that returned string; the ids and `Date.now()` values are
passed in. -/
def handleSend (messages : List ChatMessage) (input : String) (isLoading : Bool)
    (userMsgId modelMsgId : String) (now : Nat) (responseText : String) :
    List ChatMessage :=
  if jsTrim input = "" || isLoading then messages
  else
    let userMsg : ChatMessage := ⟨userMsgId, "user", input, none, now⟩
    let placeholder : ChatMessage := ⟨modelMsgId, "model", "", some true, now⟩
    ((messages ++ [userMsg]) ++ [placeholder]).map fun msg =>
      if msg.id = modelMsgId
      then { msg with text := responseText, isLoading := some false }
      else msg

/-! ## The reader's page clamp (`changePage` in `src/components/PDFReader.tsx`) -/

/-- `numPages || 1`: the total page count, treated as `1` while unknown (and
under the JavaScript falsiness of `0`). -/
def totalOrOne (numPages : Option Nat) : Nat :=
  match numPages with
  | some n => if n = 0 then 1 else n
  | none => 1

/-- `changePage` of `src/components/PDFReader.tsx`:
`Math.min(Math.max(1, prevPageNumber + offset), numPages || 1)`. -/
def changePage (numPages : Option Nat) (prevPageNumber offset : Int) : Int :=
  min (max 1 (prevPageNumber + offset)) (totalOrOne numPages : Int)

/-- The `(page, total)` pair passed to `onPageChange(newPage, numPages || 1)`
by `changePage`. -/
def changePageReport (numPages : Option Nat) (prevPageNumber offset : Int) :
    Int × Int :=
  (changePage numPages prevPageNumber offset, (totalOrOne numPages : Int))

/-! ## Observations on forests

Measures used to state the claims about `buildTree`: the number of file-kind
nodes, the collected node names, membership of a file chain (the trie lookup
matching `insertParts`), and recursive sortedness of all levels. -/

mutual
/-- Number of file-kind nodes in a tree. -/
def countTree : TreeNode → Nat
  | .mk _ _ _ k cs _ _ => (if k = .file then 1 else 0) + countForest cs

/-- Number of file-kind nodes in a forest. -/
def countForest : List TreeNode → Nat
  | [] => 0
  | t :: ts => countTree t + countForest ts
end

mutual
/-- All node names occurring in a tree. -/
def namesTree : TreeNode → List String
  | .mk _ n _ _ cs _ _ => n :: namesForest cs

/-- All node names occurring in a forest. -/
def namesForest : List TreeNode → List String
  | [] => []
  | t :: ts => namesTree t ++ namesForest ts
end

/-- A forest holds a file node at segment chain `parts` exactly when the walk
of `insertParts` would find every segment present, ending at a file-kind
node. -/
def hasFileChain : List String → List TreeNode → Bool
  | [], _ => false
  | part :: rest, level =>
    let isFile := rest.isEmpty
    match level.find? (nodeMatch part isFile) with
    | some n => if isFile then true else hasFileChain rest n.children
    | none => false

/-- Boolean pairwise check of `nodeLe` along one level. -/
def pairwiseNodeLe : List TreeNode → Bool
  | [] => true
  | t :: ts => ts.all (fun u => decide (nodeLe t u)) && pairwiseNodeLe ts

mutual
/-- Every level of the tree is sorted: folders before files and names
ascending within each kind. -/
def wsTree : TreeNode → Bool
  | .mk _ _ _ _ cs _ _ => pairwiseNodeLe cs && wsAll cs

def wsAll : List TreeNode → Bool
  | [] => true
  | t :: ts => wsTree t && wsAll ts
end

/-- A whole forest is recursively sorted. -/
def wsForest (ns : List TreeNode) : Bool :=
  pairwiseNodeLe ns && wsAll ns

/-! ## Order theory for the comparators -/

theorem charsLt_asymm : ∀ a b : List Char, charsLt a b = true → charsLt b a = false
  | [], [] => fun h => by simp [charsLt] at h
  | [], _ :: _ => fun _ => by simp [charsLt]
  | _ :: _, [] => fun h => by simp [charsLt] at h
  | a :: as, b :: bs => fun h => by
    by_cases hab : a < b
    · have hba : ¬ b < a := lt_asymm hab
      simp [charsLt, hab, hba]
    · by_cases hba : b < a
      · simp [charsLt, hab, hba] at h
      · simp only [charsLt, if_neg hab, if_neg hba] at h
        simp only [charsLt, if_neg hba, if_neg hab]
        exact charsLt_asymm as bs h

theorem charsLt_conn : ∀ a b : List Char,
    charsLt a b = false → charsLt b a = false → a = b
  | [], [] => fun _ _ => rfl
  | [], _ :: _ => fun h _ => by simp [charsLt] at h
  | _ :: _, [] => fun _ h => by simp [charsLt] at h
  | a :: as, b :: bs => fun h1 h2 => by
    by_cases hab : a < b
    · simp [charsLt, hab] at h1
    · by_cases hba : b < a
      · simp [charsLt, hba] at h2
      · have hab' : a = b := le_antisymm (not_lt.mp hba) (not_lt.mp hab)
        subst hab'
        simp only [charsLt, if_neg hab, if_neg hba] at h1 h2
        rw [charsLt_conn as bs h1 h2]

theorem charsLt_trans (a : List Char) : ∀ b c : List Char,
    charsLt a b = true → charsLt b c = true → charsLt a c = true := by
  induction a with
  | nil =>
    intro b c h1 h2
    cases c with
    | nil => cases b <;> simp [charsLt] at h1 h2
    | cons c cs => simp [charsLt]
  | cons a as ih =>
    intro b c h1 h2
    cases b with
    | nil => simp [charsLt] at h1
    | cons b bs =>
      cases c with
      | nil => simp [charsLt] at h2
      | cons c cs =>
        have H1 : a < b ∨ (a = b ∧ charsLt as bs = true) := by
          by_cases hab : a < b
          · exact Or.inl hab
          · by_cases hba : b < a
            · simp [charsLt, hab, hba] at h1
            · refine Or.inr ⟨le_antisymm (not_lt.mp hba) (not_lt.mp hab), ?_⟩
              simpa [charsLt, hab, hba] using h1
        have H2 : b < c ∨ (b = c ∧ charsLt bs cs = true) := by
          by_cases hbc : b < c
          · exact Or.inl hbc
          · by_cases hcb : c < b
            · simp [charsLt, hbc, hcb] at h2
            · refine Or.inr ⟨le_antisymm (not_lt.mp hcb) (not_lt.mp hbc), ?_⟩
              simpa [charsLt, hbc, hcb] using h2
        rcases H1 with hab | ⟨rfl, hab⟩
        · rcases H2 with hbc | ⟨rfl, _⟩
          · simp [charsLt, lt_trans hab hbc]
          · simp [charsLt, hab]
        · rcases H2 with hbc | ⟨rfl, hbc⟩
          · simp [charsLt, hbc]
          · simp only [charsLt, if_neg (lt_irrefl a)]
            exact ih bs cs hab hbc

/-- Transitivity of the non-strict comparison `charsLt · · = false`. -/
theorem charsLt_false_trans {a b c : List Char} (h1 : charsLt b a = false)
    (h2 : charsLt c b = false) : charsLt c a = false := by
  by_cases hca : charsLt c a = true
  · by_cases hbc : charsLt b c = true
    · exact absurd (charsLt_trans b c a hbc hca) (by simp [h1])
    · have : b = c := charsLt_conn b c (by simpa using hbc) h2
      subst this
      simp [hca] at h1
  · simpa using hca

theorem stringData_inj {a b : String} (h : a.data = b.data) : a = b :=
  congrArg String.mk h

theorem localeCompare_le_zero (a b : String) :
    localeCompare a b ≤ 0 ↔ charsLt b.data a.data = false := by
  unfold localeCompare
  by_cases h1 : charsLt a.data b.data = true
  · simp [h1, charsLt_asymm _ _ h1]
  · by_cases h2 : charsLt b.data a.data = true
    · simp only [h1]
      simp [h2]
    · simp only [h1]
      simp [h2]

theorem fileLe_iff (a b : StoredFile) :
    fileLe a b ↔ charsLt b.path.data a.path.data = false := by
  unfold fileLe
  exact localeCompare_le_zero a.path b.path

instance : IsTotal StoredFile fileLe := by
  constructor
  intro a b
  rw [fileLe_iff, fileLe_iff]
  by_cases h : charsLt a.path.data b.path.data = true
  · exact Or.inl (charsLt_asymm _ _ h)
  · exact Or.inr (by simpa using h)

instance : IsTrans StoredFile fileLe := by
  constructor
  intro a b c h1 h2
  rw [fileLe_iff] at h1 h2 ⊢
  exact charsLt_false_trans h1 h2

/-- The strict path order used to show path-distinct sorted sequences are
unique. -/
def filePathLt (a b : StoredFile) : Prop := charsLt a.path.data b.path.data = true

instance : IsAntisymm StoredFile filePathLt := by
  constructor
  intro a b h1 h2
  exact absurd h2 (by simp [filePathLt, charsLt_asymm _ _ h1])

theorem nodeLe_iff (a b : TreeNode) :
    nodeLe a b ↔
      (a.kind = b.kind ∧ charsLt b.name.data a.name.data = false)
      ∨ (a.kind ≠ b.kind ∧ a.kind = .folder) := by
  unfold nodeLe nodeCmp
  by_cases hk : a.kind = b.kind
  · simp [hk, localeCompare_le_zero]
  · by_cases hf : a.kind = NodeKind.folder
    · simp only [if_neg hk, if_pos hf]
      exact ⟨fun _ => Or.inr ⟨hk, hf⟩, fun _ => by norm_num⟩
    · simp only [if_neg hk, if_neg hf]
      refine ⟨fun h => absurd h (by norm_num), fun h => ?_⟩
      rcases h with ⟨h1, _⟩ | ⟨_, h2⟩
      exacts [absurd h1 hk, absurd h2 hf]

instance : IsTotal TreeNode nodeLe := by
  constructor
  intro a b
  rw [nodeLe_iff, nodeLe_iff]
  by_cases hk : a.kind = b.kind
  · by_cases h : charsLt a.name.data b.name.data = true
    · exact Or.inl (Or.inl ⟨hk, charsLt_asymm _ _ h⟩)
    · exact Or.inr (Or.inl ⟨hk.symm, by simpa using h⟩)
  · by_cases hf : a.kind = NodeKind.folder
    · exact Or.inl (Or.inr ⟨hk, hf⟩)
    · have hb : b.kind = NodeKind.folder := by
        cases hak : a.kind <;> cases hbk : b.kind <;> simp_all
      exact Or.inr (Or.inr ⟨fun h => hk h.symm, hb⟩)

instance : IsTrans TreeNode nodeLe := by
  constructor
  intro a b c h1 h2
  rw [nodeLe_iff] at h1 h2 ⊢
  rcases h1 with ⟨hk1, hn1⟩ | ⟨hk1, hf1⟩
  · rcases h2 with ⟨hk2, hn2⟩ | ⟨hk2, hf2⟩
    · exact Or.inl ⟨hk1.trans hk2, charsLt_false_trans hn1 hn2⟩
    · exact Or.inr ⟨fun h => hk2 (hk1.symm.trans h), hk1.trans hf2⟩
  · rcases h2 with ⟨hk2, _⟩ | ⟨hk2, hf2⟩
    · exact Or.inr ⟨fun h => hk1 (h.trans hk2.symm), hf1⟩
    · exact absurd (hf1.trans hf2.symm) hk1

/-! ## Preservation lemmas for the recursive sort -/

theorem countForest_append (l m : List TreeNode) :
    countForest (l ++ m) = countForest l + countForest m := by
  induction l with
  | nil => simp [countForest]
  | cons t ts ih =>
    simp only [List.cons_append, countForest, List.append_eq, ih]
    omega

theorem countForest_perm {l₁ l₂ : List TreeNode} (h : l₁.Perm l₂) :
    countForest l₁ = countForest l₂ := by
  induction h with
  | nil => rfl
  | cons x _ ih => simp [countForest, ih]
  | swap x y l => simp only [countForest]; omega
  | trans _ _ ih1 ih2 => exact ih1.trans ih2

mutual
theorem countTree_sortTree : ∀ t : TreeNode, countTree (sortTree t) = countTree t
  | .mk i n p k cs f s => by
    simp only [sortTree, countTree]
    rw [countForest_perm (List.perm_insertionSort nodeLe (sortEach cs)),
      countForest_sortEach cs]

theorem countForest_sortEach : ∀ ts : List TreeNode,
    countForest (sortEach ts) = countForest ts
  | [] => rfl
  | t :: ts => by
    simp only [sortEach, countForest]
    rw [countTree_sortTree t, countForest_sortEach ts]
end

theorem countForest_sortChildren (ns : List TreeNode) :
    countForest (sortChildren ns) = countForest ns := by
  unfold sortChildren
  rw [countForest_perm (List.perm_insertionSort nodeLe (sortEach ns)),
    countForest_sortEach ns]

theorem namesForest_append (l m : List TreeNode) :
    namesForest (l ++ m) = namesForest l ++ namesForest m := by
  induction l with
  | nil => simp [namesForest]
  | cons t ts ih =>
    simp only [List.cons_append, namesForest, List.append_eq, ih, List.append_assoc]

theorem mem_namesForest_perm {l₁ l₂ : List TreeNode} (h : l₁.Perm l₂)
    {x : String} : x ∈ namesForest l₁ ↔ x ∈ namesForest l₂ := by
  induction h with
  | nil => exact Iff.rfl
  | cons y _ ih => simp [namesForest, ih]
  | swap y z l => simp only [namesForest, List.mem_append]; tauto
  | trans _ _ ih1 ih2 => exact ih1.trans ih2

mutual
theorem mem_namesTree_sortTree : ∀ (t : TreeNode) (x : String),
    x ∈ namesTree (sortTree t) ↔ x ∈ namesTree t
  | .mk i n p k cs f s, x => by
    simp only [sortTree, namesTree, List.mem_cons]
    rw [mem_namesForest_perm (List.perm_insertionSort nodeLe (sortEach cs)),
      mem_namesForest_sortEach cs x]

theorem mem_namesForest_sortEach : ∀ (ts : List TreeNode) (x : String),
    x ∈ namesForest (sortEach ts) ↔ x ∈ namesForest ts
  | [], _ => Iff.rfl
  | t :: ts, x => by
    simp only [sortEach, namesForest, List.mem_append]
    rw [mem_namesTree_sortTree t x, mem_namesForest_sortEach ts x]
end

theorem mem_namesForest_sortChildren (ns : List TreeNode) (x : String) :
    x ∈ namesForest (sortChildren ns) ↔ x ∈ namesForest ns := by
  unfold sortChildren
  rw [mem_namesForest_perm (List.perm_insertionSort nodeLe (sortEach ns)),
    mem_namesForest_sortEach ns x]

theorem pairwiseNodeLe_iff : ∀ l : List TreeNode,
    pairwiseNodeLe l = true ↔ List.Pairwise nodeLe l
  | [] => by simp [pairwiseNodeLe]
  | t :: ts => by
    simp only [pairwiseNodeLe, Bool.and_eq_true, List.all_eq_true,
      decide_eq_true_eq, List.pairwise_cons, pairwiseNodeLe_iff ts]

theorem wsAll_iff : ∀ l : List TreeNode,
    wsAll l = true ↔ ∀ t ∈ l, wsTree t = true
  | [] => by simp [wsAll]
  | t :: ts => by
    simp only [wsAll, Bool.and_eq_true, wsAll_iff ts, List.mem_cons]
    constructor
    · rintro ⟨h1, h2⟩ u (rfl | hu)
      · exact h1
      · exact h2 u hu
    · intro h
      exact ⟨h t (Or.inl rfl), fun u hu => h u (Or.inr hu)⟩

theorem sortEach_eq_map : ∀ ts : List TreeNode, sortEach ts = ts.map sortTree
  | [] => rfl
  | t :: ts => by simp only [sortEach, List.map_cons, sortEach_eq_map ts]

mutual
theorem wsTree_sortTree : ∀ t : TreeNode, wsTree (sortTree t) = true
  | .mk i n p k cs f s => by
    simp only [sortTree, wsTree, Bool.and_eq_true]
    constructor
    · exact (pairwiseNodeLe_iff _).mpr (List.sorted_insertionSort nodeLe _)
    · rw [wsAll_iff]
      intro u hu
      have hu' : u ∈ sortEach cs := (List.mem_insertionSort nodeLe).mp hu
      have hall := wsAll_sortEach cs
      rw [wsAll_iff] at hall
      exact hall u hu'

theorem wsAll_sortEach : ∀ ts : List TreeNode, wsAll (sortEach ts) = true
  | [] => rfl
  | t :: ts => by
    simp only [sortEach, wsAll, Bool.and_eq_true]
    exact ⟨wsTree_sortTree t, wsAll_sortEach ts⟩
end

theorem wsForest_sortChildren (ns : List TreeNode) :
    wsForest (sortChildren ns) = true := by
  unfold wsForest sortChildren
  rw [Bool.and_eq_true]
  constructor
  · exact (pairwiseNodeLe_iff _).mpr (List.sorted_insertionSort nodeLe _)
  · rw [wsAll_iff]
    intro u hu
    have hu' : u ∈ sortEach ns := (List.mem_insertionSort nodeLe).mp hu
    have hall := wsAll_sortEach ns
    rw [wsAll_iff] at hall
    exact hall u hu'

/-! ## Lemmas about `insertParts` -/

theorem setChildren_children (n : TreeNode) (cs : List TreeNode) :
    (n.setChildren cs).children = cs := by
  cases n; rfl

theorem nodeMatch_setChildren (part : String) (wf : Bool) (n : TreeNode)
    (cs : List TreeNode) :
    nodeMatch part wf (n.setChildren cs) = nodeMatch part wf n := by
  cases n; rfl

theorem countTree_eq (n : TreeNode) :
    countTree n = (if n.kind = .file then 1 else 0) + countForest n.children := by
  cases n; rfl

theorem nodeMatch_spec {part : String} {wf : Bool} {n : TreeNode}
    (h : nodeMatch part wf n = true) :
    n.name = part ∧ n.kind = (if wf then .file else .folder) := by
  unfold nodeMatch at h
  simpa using h

theorem hasFileChain_nil : ∀ parts : List String, hasFileChain parts [] = false
  | [] => rfl
  | _ :: _ => rfl

theorem hasFileChain_cons (p : String) (qrest : List String)
    (level : List TreeNode) :
    hasFileChain (p :: qrest) level =
      match level.find? (nodeMatch p qrest.isEmpty) with
      | some n => if qrest.isEmpty then true else hasFileChain qrest n.children
      | none => false := rfl

theorem insertParts_cons (f : StoredFile) (cur part : String)
    (rest : List String) (level : List TreeNode) :
    insertParts f cur (part :: rest) level =
      match level.find? (nodeMatch part rest.isEmpty) with
      | some _ =>
        if rest.isEmpty then level
        else updateFirst (nodeMatch part rest.isEmpty)
          (fun n => n.setChildren
            (insertParts f (extendPath cur part) rest n.children)) level
      | none =>
        if rest.isEmpty then
          level ++ [.mk f.id part (extendPath cur part) .file []
            (some f.id) (some f.size)]
        else
          level ++ [.mk (extendPath cur part) part (extendPath cur part) .folder
            (insertParts f (extendPath cur part) rest []) none none] := rfl

theorem countForest_updateFirst (p : TreeNode → Bool) (g : TreeNode → TreeNode) :
    ∀ (l : List TreeNode) (n : TreeNode), l.find? p = some n →
    countForest (updateFirst p g l) + countTree n
      = countForest l + countTree (g n) := by
  intro l
  induction l with
  | nil => intro n h; simp at h
  | cons x xs ih =>
    intro n h
    by_cases hx : p x = true
    · rw [List.find?_cons_of_pos _ hx] at h
      injection h with h
      subst h
      simp only [updateFirst, if_pos hx, countForest]
      omega
    · rw [List.find?_cons_of_neg _ hx] at h
      simp only [updateFirst, if_neg hx, countForest]
      have := ih n h
      omega

theorem find?_updateFirst_self (p : TreeNode → Bool) (g : TreeNode → TreeNode)
    (hg : ∀ x, p (g x) = p x) :
    ∀ (l : List TreeNode) (n : TreeNode), l.find? p = some n →
      (updateFirst p g l).find? p = some (g n) := by
  intro l
  induction l with
  | nil => intro n h; simp at h
  | cons x xs ih =>
    intro n h
    by_cases hx : p x = true
    · rw [List.find?_cons_of_pos _ hx] at h
      injection h with h
      subst h
      simp only [updateFirst, if_pos hx]
      exact List.find?_cons_of_pos _ (by rw [hg]; exact hx)
    · rw [List.find?_cons_of_neg _ hx] at h
      simp only [updateFirst, if_neg hx]
      rw [List.find?_cons_of_neg _ hx]
      exact ih n h

theorem find?_updateFirst_disjoint (p q : TreeNode → Bool) (g : TreeNode → TreeNode)
    (hdisj : ∀ x, q x = true → p x = false)
    (hg : ∀ x, q (g x) = q x) :
    ∀ l : List TreeNode, (updateFirst p g l).find? q = l.find? q := by
  intro l
  induction l with
  | nil => rfl
  | cons x xs ih =>
    by_cases hx : p x = true
    · simp only [updateFirst, if_pos hx]
      have hqx : ¬ q x = true := by
        intro hq
        exact absurd (hdisj x hq) (by simp [hx])
      have hqgx : ¬ q (g x) = true := by rw [hg]; exact hqx
      rw [List.find?_cons_of_neg _ hqgx, List.find?_cons_of_neg _ hqx]
    · simp only [updateFirst, if_neg hx]
      by_cases hq : q x = true
      · rw [List.find?_cons_of_pos _ hq, List.find?_cons_of_pos _ hq]
      · rw [List.find?_cons_of_neg _ hq, List.find?_cons_of_neg _ hq, ih]

/-- Inserting one record adds exactly one file node when its segment chain is
not yet present, and nothing otherwise. -/
theorem countForest_insertParts (f : StoredFile) :
    ∀ (rest : List String) (part cur : String) (level : List TreeNode),
    countForest (insertParts f cur (part :: rest) level)
      = countForest level
        + (if hasFileChain (part :: rest) level then 0 else 1) := by
  intro rest
  induction rest with
  | nil =>
    intro part cur level
    rw [insertParts_cons, hasFileChain_cons]
    cases hf : level.find? (nodeMatch part ([] : List String).isEmpty) with
    | some n => simp [hf]
    | none => simp [hf, countForest_append, countForest, countTree]
  | cons r rs ih =>
    intro part cur level
    rw [insertParts_cons, hasFileChain_cons]
    cases hf : level.find? (nodeMatch part (r :: rs).isEmpty) with
    | some n =>
      have hkn : n.kind = .folder := by
        have := (nodeMatch_spec (List.find?_some hf)).2
        simpa using this
      have hup := countForest_updateFirst (nodeMatch part (r :: rs).isEmpty)
        (fun x => x.setChildren
          (insertParts f (extendPath cur part) (r :: rs) x.children)) level n hf
      beta_reduce at hup
      simp only [List.isEmpty_cons] at hup
      have hcn : countTree n = countForest n.children := by
        rw [countTree_eq, hkn]
        simp
      have hgn : countTree (n.setChildren
            (insertParts f (extendPath cur part) (r :: rs) n.children))
          = countForest (insertParts f (extendPath cur part) (r :: rs) n.children) := by
        rw [countTree_eq, setChildren_children]
        cases n
        simp only [TreeNode.setChildren, TreeNode.kind] at hkn ⊢
        simp [hkn]
      have hins := ih r (extendPath cur part) n.children
      simp only [hf, List.isEmpty_cons, Bool.false_eq_true, if_false]
      by_cases hch : hasFileChain (r :: rs) n.children = true
      · rw [if_pos hch]
        rw [if_pos hch] at hins
        omega
      · rw [if_neg hch]
        rw [if_neg hch] at hins
        omega
    | none =>
      have hins := ih r (extendPath cur part) []
      rw [hasFileChain_nil] at hins
      simp only [countForest, Bool.false_eq_true, if_false] at hins
      simp only [hf, List.isEmpty_cons, Bool.false_eq_true, if_false]
      rw [countForest_append]
      simp [countForest, countTree, hins]

/-- The segment chains with a file node present after an insertion are
exactly those present before plus the inserted chain. -/
theorem hasFileChain_insertParts (f : StoredFile) :
    ∀ (rest : List String) (part cur : String) (level : List TreeNode)
      (q : List String),
    hasFileChain q (insertParts f cur (part :: rest) level)
      = (hasFileChain q level || decide (q = part :: rest)) := by
  intro rest
  induction rest with
  | nil =>
    intro part cur level q
    rw [insertParts_cons]
    cases hf : level.find? (nodeMatch part true) with
    | some n =>
      simp only [List.isEmpty_nil, hf, if_true]
      by_cases hq : q = [part]
      · subst hq
        simp [hasFileChain_cons, List.isEmpty_nil, hf]
      · simp [hq]
    | none =>
      simp only [List.isEmpty_nil, hf, if_true]
      cases q with
      | nil => simp [hasFileChain]
      | cons p qrest =>
        rw [hasFileChain_cons, hasFileChain_cons, List.find?_append]
        cases hfq : level.find? (nodeMatch p qrest.isEmpty) with
        | some m =>
          have hq : ¬ (p :: qrest = [part]) := by
            intro he
            injection he with h1 h2
            subst h1
            subst h2
            simp only [List.isEmpty_nil] at hfq
            rw [hf] at hfq
            cases hfq
          simp [hfq, hq]
        | none =>
          by_cases hq : p :: qrest = [part]
          · injection hq with h1 h2
            subst h1
            subst h2
            simp [hfq, List.isEmpty_nil, nodeMatch, TreeNode.name, TreeNode.kind]
          · have hnm : nodeMatch p qrest.isEmpty
                (TreeNode.mk f.id part (extendPath cur part) .file []
                  (some f.id) (some f.size)) = false := by
              cases qrest with
              | nil =>
                have hpp : ¬ (p = part) := fun he => hq (by rw [he])
                simp only [nodeMatch, TreeNode.name, TreeNode.kind,
                  List.isEmpty_nil, if_true, Bool.and_eq_false_iff]
                left
                simp
                intro he
                exact hpp he.symm
              | cons _ _ =>
                simp [nodeMatch, TreeNode.name, TreeNode.kind]
            simp [hfq, hnm, hq]
  | cons r rs ih =>
    intro part cur level q
    rw [insertParts_cons]
    cases hf : level.find? (nodeMatch part false) with
    | some n =>
      simp only [List.isEmpty_cons, hf, Bool.false_eq_true, if_false]
      cases q with
      | nil => simp [hasFileChain]
      | cons p qrest =>
        by_cases hpp : p = part ∧ qrest ≠ []
        · obtain ⟨rfl, hqr⟩ := hpp
          have hqe : qrest.isEmpty = false := by
            cases qrest with
            | nil => exact absurd rfl hqr
            | cons _ _ => rfl
          rw [hasFileChain_cons, hasFileChain_cons, hqe]
          have hself := find?_updateFirst_self (nodeMatch p false)
            (fun x => x.setChildren
              (insertParts f (extendPath cur p) (r :: rs) x.children))
            (fun x => nodeMatch_setChildren _ _ _ _) level n hf
          simp only [hself, hf, Bool.false_eq_true, if_false]
          rw [setChildren_children, ih r (extendPath cur p) n.children qrest]
          simp
        · have hdisj : ∀ x, nodeMatch p qrest.isEmpty x = true →
              nodeMatch part false x = false := by
            intro x hx
            obtain ⟨hn, hk⟩ := nodeMatch_spec hx
            rcases not_and_or.mp hpp with hne | hqe
            · simp only [nodeMatch, Bool.and_eq_false_iff]
              left
              simp only [hn, decide_eq_false_iff_not]
              exact hne
            · rw [not_not] at hqe
              subst hqe
              simp only [List.isEmpty_nil, if_true] at hk
              simp only [nodeMatch, Bool.and_eq_false_iff]
              right
              simp [hk]
          have hfind := find?_updateFirst_disjoint
            (nodeMatch part false) (nodeMatch p qrest.isEmpty)
            (fun x => x.setChildren
              (insertParts f (extendPath cur part) (r :: rs) x.children))
            hdisj (fun x => nodeMatch_setChildren _ _ _ _) level
          rw [hasFileChain_cons, hasFileChain_cons, hfind]
          have hq : ¬ (p :: qrest = part :: r :: rs) := by
            intro he
            injection he with h1 h2
            exact hpp ⟨h1, by rw [h2]; simp⟩
          cases hfq : level.find? (nodeMatch p qrest.isEmpty) with
          | some m => simp [hfq, hq]
          | none => simp [hfq, hq]
    | none =>
      simp only [List.isEmpty_cons, hf, Bool.false_eq_true, if_false]
      cases q with
      | nil => simp [hasFileChain]
      | cons p qrest =>
        rw [hasFileChain_cons, hasFileChain_cons, List.find?_append]
        cases hfq : level.find? (nodeMatch p qrest.isEmpty) with
        | some m =>
          have hq : ¬ (p :: qrest = part :: r :: rs) := by
            intro he
            injection he with h1 h2
            subst h1
            subst h2
            simp only [List.isEmpty_cons] at hfq
            rw [hf] at hfq
            cases hfq
          simp [hfq, hq]
        | none =>
          by_cases hmatch : p = part ∧ qrest ≠ []
          · obtain ⟨rfl, hqr⟩ := hmatch
            have hqe : qrest.isEmpty = false := by
              cases qrest with
              | nil => exact absurd rfl hqr
              | cons _ _ => rfl
            have hnm : nodeMatch p qrest.isEmpty
                (TreeNode.mk (extendPath cur p) p (extendPath cur p) .folder
                  (insertParts f (extendPath cur p) (r :: rs) []) none none)
                  = true := by
              simp [nodeMatch, TreeNode.name, TreeNode.kind, hqe]
            simp only [hfq, Option.none_or]
            rw [List.find?_cons_of_pos _ hnm]
            simp only [hqe, Bool.false_eq_true, if_false, TreeNode.children]
            rw [ih r (extendPath cur p) [] qrest, hasFileChain_nil]
            simp
          · have hnm : nodeMatch p qrest.isEmpty
                (TreeNode.mk (extendPath cur part) part (extendPath cur part)
                  .folder (insertParts f (extendPath cur part) (r :: rs) [])
                  none none) = false := by
              rcases not_and_or.mp hmatch with hne | hqe
              · simp only [nodeMatch, TreeNode.name, TreeNode.kind,
                  Bool.and_eq_false_iff]
                left
                simp only [decide_eq_false_iff_not]
                intro he
                exact hne he.symm
              · rw [not_not] at hqe
                subst hqe
                simp [nodeMatch, TreeNode.name, TreeNode.kind]
            have hq : ¬ (p :: qrest = part :: r :: rs) := by
              intro he
              injection he with h1 h2
              exact hmatch ⟨h1, by rw [h2]; simp⟩
            simp [hfq, hnm, hq]

/-! ## Folding all records into the forest -/

theorem splitSegs_ne_nil (sep : Char) : ∀ s : List Char, splitSegs sep s ≠ []
  | [] => by simp [splitSegs]
  | c :: rest => by
    simp only [splitSegs]
    by_cases h : c = sep
    · simp [h]
    · rw [if_neg h]
      cases hs : splitSegs sep rest <;> simp

theorem partsOf_ne_nil (f : StoredFile) : partsOf f ≠ [] :=
  splitSegs_ne_nil _ _

theorem countForest_fold (fs : List StoredFile) :
    ∀ root : List TreeNode,
    (∀ f ∈ fs, hasFileChain (partsOf f) root = false) →
    (fs.map partsOf).Nodup →
    countForest (fs.foldl (fun level file =>
        insertParts file "" (partsOf file) level) root)
      = countForest root + fs.length := by
  induction fs with
  | nil => intro root _ _; simp
  | cons f fs ih =>
    intro root hvac hnd
    simp only [List.foldl_cons]
    obtain ⟨p0, prest, hp⟩ : ∃ a l, partsOf f = a :: l := by
      cases hpf : partsOf f with
      | nil => exact absurd hpf (partsOf_ne_nil f)
      | cons a l => exact ⟨a, l, rfl⟩
    simp only [List.map_cons, List.nodup_cons] at hnd
    obtain ⟨hnotin, hndtail⟩ := hnd
    have hcf : hasFileChain (partsOf f) root = false := hvac f (List.mem_cons_self f fs)
    have hnew : ∀ g ∈ fs,
        hasFileChain (partsOf g) (insertParts f "" (partsOf f) root) = false := by
      intro g hg
      rw [hp, hasFileChain_insertParts, ← hp]
      have h1 : hasFileChain (partsOf g) root = false :=
        hvac g (List.mem_cons_of_mem f hg)
      have h2 : ¬ (partsOf g = partsOf f) := by
        intro he
        exact hnotin (he ▸ List.mem_map_of_mem partsOf hg)
      simp [h1, h2]
    rw [ih (insertParts f "" (partsOf f) root) hnew hndtail]
    rw [hp, countForest_insertParts, ← hp, hcf]
    simp only [Bool.false_eq_true, if_false, List.length_cons]
    omega

/-- The number of file-kind nodes of the projected forest equals the number
of distinct normalized paths; under pairwise-distinct normalized paths it is
the number of records. -/
theorem countForest_buildTree (files : List StoredFile)
    (hnd : (files.map partsOf).Nodup) :
    countForest (buildTree files) = files.length := by
  unfold buildTree
  rw [countForest_sortChildren]
  have hperm := List.perm_insertionSort fileLe files
  have hnd' : ((List.insertionSort fileLe files).map partsOf).Nodup :=
    ((hperm.map partsOf).nodup_iff).mpr hnd
  have hvac : ∀ f ∈ List.insertionSort fileLe files,
      hasFileChain (partsOf f) ([] : List TreeNode) = false := by
    intro f _
    exact hasFileChain_nil _
  rw [countForest_fold _ _ hvac hnd']
  simp [countForest, hperm.length_eq]

/-! ## Determinism of the sorted insertion order -/

theorem sorted_strict_of_nodup {l : List StoredFile}
    (hs : l.Sorted fileLe) (hn : (l.map StoredFile.path).Nodup) :
    l.Sorted filePathLt := by
  have hne : l.Pairwise (fun a b : StoredFile => a.path ≠ b.path) :=
    List.pairwise_map.mp hn
  refine (hs.and hne).imp ?_
  rintro a b ⟨hle, hab⟩
  rw [fileLe_iff] at hle
  unfold filePathLt
  by_cases h : charsLt a.path.data b.path.data = true
  · exact h
  · exact absurd (stringData_inj (charsLt_conn _ _ (by simpa using h) hle))
      hab

theorem insertionSort_eq_of_perm {l₁ l₂ : List StoredFile}
    (hp : l₁.Perm l₂) (hnd : (l₁.map StoredFile.path).Nodup) :
    List.insertionSort fileLe l₁ = List.insertionSort fileLe l₂ := by
  have hperm : (List.insertionSort fileLe l₁).Perm (List.insertionSort fileLe l₂) :=
    (List.perm_insertionSort fileLe l₁).trans
      (hp.trans (List.perm_insertionSort fileLe l₂).symm)
  have hnd₁ : ((List.insertionSort fileLe l₁).map StoredFile.path).Nodup :=
    (((List.perm_insertionSort fileLe l₁).map _).nodup_iff).mpr hnd
  have hnd₂ : ((List.insertionSort fileLe l₂).map StoredFile.path).Nodup :=
    (((List.perm_insertionSort fileLe l₂).map _).nodup_iff).mpr
      ((hp.map _).nodup_iff.mp hnd)
  exact List.eq_of_perm_of_sorted hperm
    (sorted_strict_of_nodup (List.sorted_insertionSort fileLe l₁) hnd₁)
    (sorted_strict_of_nodup (List.sorted_insertionSort fileLe l₂) hnd₂)

/-- Path-determinism of the projector for inputs with pairwise-distinct raw
paths. -/
theorem buildTree_perm_eq {l₁ l₂ : List StoredFile} (hp : l₁.Perm l₂)
    (hnd : (l₁.map StoredFile.path).Nodup) : buildTree l₁ = buildTree l₂ := by
  unfold buildTree
  rw [insertionSort_eq_of_perm hp hnd]

/-! ## Node names come from path segments -/

theorem namesTree_eq (n : TreeNode) :
    namesTree n = n.name :: namesForest n.children := by
  cases n; rfl

theorem mem_namesForest_of_mem {n : TreeNode} :
    ∀ l : List TreeNode, n ∈ l → ∀ x, x ∈ namesTree n → x ∈ namesForest l := by
  intro l
  induction l with
  | nil => intro h; cases h
  | cons t ts ih =>
    intro h x hx
    rcases List.mem_cons.mp h with rfl | h
    · exact List.mem_append.mpr (Or.inl hx)
    · exact List.mem_append.mpr (Or.inr (ih h x hx))

theorem names_updateFirst (p : TreeNode → Bool) (g : TreeNode → TreeNode) :
    ∀ (l : List TreeNode) (n : TreeNode), l.find? p = some n →
    ∀ x, x ∈ namesForest (updateFirst p g l) →
      x ∈ namesForest l ∨ x ∈ namesTree (g n) := by
  intro l
  induction l with
  | nil => intro n h; simp at h
  | cons t ts ih =>
    intro n h x hx
    by_cases ht : p t = true
    · rw [List.find?_cons_of_pos _ ht] at h
      injection h with h
      subst h
      simp only [updateFirst, if_pos ht] at hx
      rcases List.mem_append.mp hx with hx | hx
      · exact Or.inr hx
      · exact Or.inl (List.mem_append.mpr (Or.inr hx))
    · rw [List.find?_cons_of_neg _ ht] at h
      simp only [updateFirst, if_neg ht] at hx
      rcases List.mem_append.mp hx with hx | hx
      · exact Or.inl (List.mem_append.mpr (Or.inl hx))
      · rcases ih n h x hx with hx | hx
        · exact Or.inl (List.mem_append.mpr (Or.inr hx))
        · exact Or.inr hx

theorem names_insertParts (f : StoredFile) :
    ∀ (rest : List String) (part cur : String) (level : List TreeNode)
      (x : String),
    x ∈ namesForest (insertParts f cur (part :: rest) level) →
    x ∈ namesForest level ∨ x ∈ (part :: rest) := by
  intro rest
  induction rest with
  | nil =>
    intro part cur level x hx
    rw [insertParts_cons] at hx
    cases hf : level.find? (nodeMatch part true) with
    | some n =>
      simp only [List.isEmpty_nil, hf, if_true] at hx
      exact Or.inl hx
    | none =>
      simp only [List.isEmpty_nil, hf, if_true] at hx
      rw [namesForest_append] at hx
      rcases List.mem_append.mp hx with hx | hx
      · exact Or.inl hx
      · simp only [namesForest, namesTree, List.append_nil, List.mem_cons] at hx
        rcases hx with rfl | hx
        · exact Or.inr (List.mem_cons_self _ _)
        · cases hx
  | cons r rs ih =>
    intro part cur level x hx
    rw [insertParts_cons] at hx
    cases hf : level.find? (nodeMatch part false) with
    | some n =>
      simp only [List.isEmpty_cons, hf, Bool.false_eq_true, if_false] at hx
      rcases names_updateFirst _ _ level n hf x hx with hx | hx
      · exact Or.inl hx
      · rw [namesTree_eq] at hx
        have hname : n.name = part := (nodeMatch_spec (List.find?_some hf)).1
        simp only [setChildren_children] at hx
        cases n
        simp only [TreeNode.setChildren, TreeNode.name] at hx hname
        simp only [TreeNode.children] at hx
        rcases List.mem_cons.mp hx with rfl | hx
        · exact Or.inr (hname ▸ List.mem_cons_self _ _)
        · rcases ih r (extendPath cur part) _ x hx with hx | hx
          · exact Or.inl (mem_namesForest_of_mem level
              (List.mem_of_find?_eq_some hf) x (by
                rw [namesTree_eq]
                exact List.mem_cons_of_mem _ hx))
          · exact Or.inr (List.mem_cons_of_mem _ hx)
    | none =>
      simp only [List.isEmpty_cons, hf, Bool.false_eq_true, if_false] at hx
      rw [namesForest_append] at hx
      rcases List.mem_append.mp hx with hx | hx
      · exact Or.inl hx
      · simp only [namesForest, namesTree, List.append_nil, List.mem_cons] at hx
        rcases hx with rfl | hx
        · exact Or.inr (List.mem_cons_self _ _)
        · rcases ih r (extendPath cur part) [] x hx with hx | hx
          · simp [namesForest] at hx
          · exact Or.inr (List.mem_cons_of_mem _ hx)

theorem names_fold (fs : List StoredFile) :
    ∀ (root : List TreeNode) (x : String),
    x ∈ namesForest (fs.foldl (fun level file =>
        insertParts file "" (partsOf file) level) root) →
    x ∈ namesForest root ∨ ∃ f ∈ fs, x ∈ partsOf f := by
  induction fs with
  | nil =>
    intro root x hx
    exact Or.inl hx
  | cons f fs ih =>
    intro root x hx
    simp only [List.foldl_cons] at hx
    rcases ih _ x hx with hx | ⟨g, hg, hxg⟩
    · obtain ⟨p0, prest, hp⟩ : ∃ a l, partsOf f = a :: l := by
        cases hpf : partsOf f with
        | nil => exact absurd hpf (partsOf_ne_nil f)
        | cons a l => exact ⟨a, l, rfl⟩
      rw [hp] at hx
      rcases names_insertParts f prest p0 "" root x hx with hx | hx
      · exact Or.inl hx
      · exact Or.inr ⟨f, List.mem_cons_self f fs, hp ▸ hx⟩
    · exact Or.inr ⟨g, List.mem_cons_of_mem f hg, hxg⟩

/-- Every node name of the projected forest is a segment of some record's
normalized path. -/
theorem names_buildTree (files : List StoredFile) (x : String)
    (hx : x ∈ namesForest (buildTree files)) : ∃ f ∈ files, x ∈ partsOf f := by
  unfold buildTree at hx
  rw [mem_namesForest_sortChildren] at hx
  rcases names_fold _ _ _ hx with h | ⟨f, hf, hxf⟩
  · simp [namesForest] at h
  · exact ⟨f, (List.mem_insertionSort fileLe).mp hf, hxf⟩

/-! ## Upsert lemmas -/

theorem dbPutHistory_of_not_mem (h : ReadingHistory) :
    ∀ store : List ReadingHistory,
    h.fileId ∉ store.map ReadingHistory.fileId →
    dbPutHistory store h = store ++ [h] := by
  intro store
  induction store with
  | nil => intro _; rfl
  | cons x xs ih =>
    intro hnm
    simp only [List.map_cons, List.mem_cons, not_or] at hnm
    obtain ⟨hne, hnm⟩ := hnm
    have hx : ¬ (x.fileId = h.fileId) := fun he => hne he.symm
    simp only [dbPutHistory]
    rw [if_neg hx, ih hnm]
    simp

theorem dbPutHistory_length_of_mem (h : ReadingHistory) :
    ∀ store : List ReadingHistory,
    h.fileId ∈ store.map ReadingHistory.fileId →
    (dbPutHistory store h).length = store.length := by
  intro store
  induction store with
  | nil => intro hm; simp at hm
  | cons x xs ih =>
    intro hm
    by_cases hx : x.fileId = h.fileId
    · simp [dbPutHistory, hx]
    · simp only [List.map_cons, List.mem_cons] at hm
      rcases hm with hm | hm
      · exact absurd hm.symm hx
      · simp only [dbPutHistory, List.length_cons]
        rw [if_neg hx]
        simp only [List.length_cons, ih hm]

theorem countP_eq_zero_of_not_mem (fid : String) :
    ∀ l : List ReadingHistory, fid ∉ l.map ReadingHistory.fileId →
    l.countP (fun x => decide (x.fileId = fid)) = 0 := by
  intro l
  induction l with
  | nil => intro _; rfl
  | cons x xs ih =>
    intro hnm
    simp only [List.map_cons, List.mem_cons, not_or] at hnm
    obtain ⟨hne, hnm⟩ := hnm
    have hx : ¬ (x.fileId = fid) := fun he => hne he.symm
    rw [List.countP_cons_of_neg _ _ (by simpa using hx)]
    exact ih hnm

theorem dbPutHistory_countP (h : ReadingHistory) :
    ∀ store : List ReadingHistory,
    (store.map ReadingHistory.fileId).Nodup →
    (dbPutHistory store h).countP (fun x => decide (x.fileId = h.fileId)) = 1 := by
  intro store
  induction store with
  | nil =>
    intro _
    simp [dbPutHistory, List.countP_cons]
  | cons x xs ih =>
    intro hnd
    simp only [List.map_cons, List.nodup_cons] at hnd
    obtain ⟨hnotin, hnd⟩ := hnd
    by_cases hx : x.fileId = h.fileId
    · simp only [dbPutHistory]
      rw [if_pos hx, List.countP_cons_of_pos _ _ (by simp)]
      rw [countP_eq_zero_of_not_mem _ _ (hx ▸ hnotin)]
    · simp only [dbPutHistory]
      rw [if_neg hx, List.countP_cons_of_neg _ _ (by simpa using hx)]
      exact ih hnd

theorem dbPutHistory_keys (h : ReadingHistory) :
    ∀ store : List ReadingHistory,
    (dbPutHistory store h).map ReadingHistory.fileId
      = if h.fileId ∈ store.map ReadingHistory.fileId
        then store.map ReadingHistory.fileId
        else store.map ReadingHistory.fileId ++ [h.fileId] := by
  intro store
  induction store with
  | nil => simp [dbPutHistory]
  | cons x xs ih =>
    by_cases hx : x.fileId = h.fileId
    · simp only [dbPutHistory]
      rw [if_pos hx]
      simp [hx]
    · simp only [dbPutHistory]
      rw [if_neg hx]
      by_cases hm : h.fileId ∈ xs.map ReadingHistory.fileId
      · rw [if_pos (by simp [hm])]
        simp only [List.map_cons, ih]
        rw [if_pos hm]
      · rw [if_neg (by
          simp only [List.map_cons, List.mem_cons, not_or]
          exact ⟨fun he => hx he.symm, hm⟩)]
        simp only [List.map_cons, ih]
        rw [if_neg hm]
        simp

theorem dbPutHistory_keys_nodup (h : ReadingHistory)
    (store : List ReadingHistory)
    (hnd : (store.map ReadingHistory.fileId).Nodup) :
    ((dbPutHistory store h).map ReadingHistory.fileId).Nodup := by
  rw [dbPutHistory_keys]
  by_cases hm : h.fileId ∈ store.map ReadingHistory.fileId
  · rw [if_pos hm]
    exact hnd
  · rw [if_neg hm]
    exact ((List.perm_append_singleton _ _).nodup_iff).mpr
      (List.nodup_cons.mpr ⟨hm, hnd⟩)

/-- `handlePageChange`'s in-memory updater recurses exactly like the keyed
`put`. -/
theorem updateHistoryState_cons (x : ReadingHistory) (xs : List ReadingHistory)
    (fid : String) (page total now : Nat) :
    updateHistoryState (x :: xs) fid page total now
      = if x.fileId = fid
        then (⟨fid, page, now, some total⟩ : ReadingHistory) :: xs
        else x :: updateHistoryState xs fid page total now := by
  unfold updateHistoryState
  rw [List.findIdx?_cons]
  by_cases hx : x.fileId = fid
  · rw [if_pos (by simpa using hx), if_pos hx]
    rfl
  · rw [if_neg (by simpa using hx), if_neg hx]
    cases hidx : List.findIdx? (fun h => h.fileId = fid) xs with
    | some i => simp [hidx]
    | none => simp [hidx]

theorem updateHistoryState_eq_dbPut (fid : String) (page total now : Nat) :
    ∀ prev : List ReadingHistory,
    updateHistoryState prev fid page total now
      = dbPutHistory prev ⟨fid, page, now, some total⟩ := by
  intro prev
  induction prev with
  | nil => rfl
  | cons x xs ih =>
    rw [updateHistoryState_cons]
    by_cases hx : x.fileId = fid
    · simp only [dbPutHistory]
      rw [if_pos hx, if_pos hx]
    · simp only [dbPutHistory]
      rw [if_neg hx, if_neg hx, ih]

/-! ## Remaining supporting lemmas -/

theorem filter_ne_id_length (x : String) :
    ∀ l : List StoredFile, (l.map StoredFile.id).Nodup →
    x ∈ l.map StoredFile.id →
    (l.filter (fun f => f.id ≠ x)).length + 1 = l.length := by
  intro l
  induction l with
  | nil => intro _ hm; simp at hm
  | cons f fs ih =>
    intro hnd hm
    simp only [List.map_cons, List.nodup_cons] at hnd
    obtain ⟨hnotin, hnd⟩ := hnd
    by_cases hf : f.id = x
    · rw [List.filter_cons_of_neg (by simp [hf])]
      have hall : fs.filter (fun f => f.id ≠ x) = fs := by
        rw [List.filter_eq_self]
        intro a ha
        simp only [ne_eq, decide_not, Bool.not_eq_eq_eq_not, Bool.not_true,
          decide_eq_false_iff_not]
        intro he
        exact hnotin (by rw [hf, ← he]; exact List.mem_map_of_mem _ ha)
      rw [hall, List.length_cons]
    · rw [List.filter_cons_of_pos (by simp [hf])]
      simp only [List.map_cons, List.mem_cons] at hm
      rcases hm with hm | hm
      · exact absurd hm.symm hf
      · simp only [List.length_cons]
        rw [← ih hnd hm]

theorem folderDelete_fold_attempted (fails : String → Bool) :
    ∀ (l : List StoredFile) (db : DBState) (st : AppState) (att : List String),
    (l.foldl (folderDeleteStep fails) (db, st, att)).2.2
      = att ++ l.map StoredFile.id := by
  intro l
  induction l with
  | nil => intro db st att; simp
  | cons f fs ih =>
    intro db st att
    simp only [List.foldl_cons, folderDeleteStep]
    rw [ih]
    simp

theorem errorPrefix (s : String) :
    jsStartsWith ("Error: " ++ s) "Error:" = true := by
  unfold jsStartsWith
  rw [List.isPrefixOf_iff_prefix]
  have h : ("Error: " ++ s).data = "Error:".data ++ (' ' :: s.data) := by
    rw [String.data_append]
    rfl
  rw [h]
  exact ⟨_, rfl⟩

/-- Whether the AI call took one of its failure paths: falsy `API_KEY` or a
thrown provider error. -/
def apiFailed (apiKey : Option String) (outcome : ApiOutcome) : Bool :=
  jsFalsy apiKey ||
    (match outcome with
     | .thrown _ => true
     | .ok _ => false)

theorem generateAIResponse_error_onFailure (apiKey : Option String)
    (outcome : ApiOutcome) (req : AIAnalysisRequest)
    (hfail : apiFailed apiKey outcome = true) :
    jsStartsWith (generateAIResponse apiKey outcome req) "Error:" = true := by
  unfold generateAIResponse
  by_cases hk : jsFalsy apiKey = true
  · rw [if_pos hk]
    exact errorPrefix _
  · rw [if_neg hk]
    unfold apiFailed at hfail
    rw [Bool.or_eq_true] at hfail
    rcases hfail with hfail | hfail
    · exact absurd hfail hk
    · cases outcome with
      | thrown msg => exact errorPrefix _
      | ok t => simp at hfail

theorem map_resolve_of_fresh (mid : String) (responseText : String) :
    ∀ l : List ChatMessage, (∀ m ∈ l, m.id ≠ mid) →
    (l.map fun msg =>
        if msg.id = mid
        then { msg with text := responseText, isLoading := some false }
        else msg) = l := by
  intro l
  induction l with
  | nil => intro _; rfl
  | cons m ms ih =>
    intro h
    simp only [List.map_cons]
    rw [if_neg (h m (List.mem_cons_self m ms)), ih
      (fun m hm => h m (List.mem_cons_of_mem _ hm))]

theorem handleSend_appends_reply (messages : List ChatMessage) (input : String)
    (uid mid : String) (now : Nat) (responseText : String)
    (hfresh : ∀ m ∈ messages, m.id ≠ mid) (huid : uid ≠ mid)
    (hinput : jsTrim input ≠ "") :
    handleSend messages input false uid mid now responseText
      = messages
        ++ [⟨uid, "user", input, none, now⟩,
            ⟨mid, "model", responseText, some false, now⟩] := by
  unfold handleSend
  rw [if_neg (by simp [hinput])]
  rw [List.map_append, List.map_append]
  rw [map_resolve_of_fresh mid responseText messages hfresh]
  simp only [List.map_cons, List.map_nil]
  simp [huid]

theorem totalOrOne_pos (numPages : Option Nat) : 1 ≤ totalOrOne numPages := by
  cases numPages with
  | none => exact le_refl 1
  | some n =>
    simp only [totalOrOne]
    by_cases h : n = 0
    · rw [if_pos h]
    · rw [if_neg h]
      omega

theorem changePage_bounds (numPages : Option Nat) (prev offset : Int) :
    1 ≤ changePage numPages prev offset
      ∧ changePage numPages prev offset ≤ (totalOrOne numPages : Int) := by
  have ht : (1 : Int) ≤ (totalOrOne numPages : Int) := by
    exact_mod_cast totalOrOne_pos numPages
  unfold changePage
  constructor
  · exact le_min (le_max_left 1 _) ht
  · exact min_le_right _ _

theorem foldl_changePage_bounds (numPages : Option Nat) :
    ∀ (offsets : List Int) (first start : Int),
    1 ≤ (first :: offsets).foldl (changePage numPages) start
      ∧ (first :: offsets).foldl (changePage numPages) start
        ≤ (totalOrOne numPages : Int) := by
  intro offsets
  induction offsets with
  | nil =>
    intro first start
    simpa using changePage_bounds numPages start first
  | cons o os ih =>
    intro first start
    simpa using ih o (changePage numPages start first)

/-! ## Claim theorems -/

def dupA : StoredFile := ⟨"id1", "x.pdf", "application/pdf", 10, [], 0, "x.pdf"⟩

def dupB : StoredFile := ⟨"id2", "x.pdf", "application/pdf", 20, [], 1, "x.pdf"⟩

/-- C1 (counterexample): two records with the same path (`"x.pdf"`) and
different `fileId` are collapsed by `buildTree` into a single file node — the
forest holds one file-kind node, not two. -/
theorem c1_counterexample :
    dupA.path = dupB.path ∧ dupA.id ≠ dupB.id
      ∧ countForest (buildTree [dupA, dupB]) = 1 :=
  ⟨rfl, by decide, by decide⟩

/-- C1 (amended): the forest built by `buildTree` contains exactly one
file-kind node per distinct normalized path: when the records' normalized
segment lists are pairwise distinct, there is exactly one file node per input
record; records sharing a path are collapsed into one node. -/
theorem c1_one_file_node_per_distinct_path (files : List StoredFile)
    (hnd : (files.map partsOf).Nodup) :
    countForest (buildTree files) = files.length :=
  countForest_buildTree files hnd

theorem c1_witness :
    (([mkFile "1" "a.pdf", mkFile "2" "Docs/b.pdf"]).map partsOf).Nodup
    ∧ countForest (buildTree [mkFile "1" "a.pdf", mkFile "2" "Docs/b.pdf"]) = 2 :=
  ⟨by decide, c1_one_file_node_per_distinct_path _ (by decide)⟩

def fooExact : StoredFile := mkFile "10" "Foo"

/-- C2 (counterexample): in `src/App.tsx`'s `handleFolderDelete`, a file
whose path equals the folder path exactly is NOT selected. -/
theorem c2_counterexample :
    fooExact.path = "Foo" ∧ filesUnderApp [fooExact] "Foo" = [] :=
  ⟨rfl, by decide⟩

/-- C2 (amended): `src/App.tsx` selects a file iff its path, with a single
leading slash stripped, starts with `folderPath ++ "/"` (exact equality is
not selected); the alternate shell of `geminiService.ts` selects a file iff
its path equals the folder path or starts with `folderPath ++ "/"`.  In both,
folder `"Foo"` never selects `"Foobar/x.pdf"` but selects `"Foo/x.pdf"` and
`"Foo/Sub/y.pdf"`; a file whose path is exactly `"Foo"` is selected only by
the alternate shell. -/
theorem c2_folder_query :
    (∀ (files : List StoredFile) (p : String) (f : StoredFile),
        f ∈ filesUnderApp files p ↔
          f ∈ files ∧ jsStartsWith (stripLeadingSlash f.path) (p ++ "/") = true)
    ∧ (∀ (files : List StoredFile) (p : String) (f : StoredFile),
        f ∈ filesUnderAlt files p ↔
          f ∈ files ∧ (f.path = p ∨ jsStartsWith f.path (p ++ "/") = true))
    ∧ filesUnderApp [mkFile "1" "Foobar/x.pdf"] "Foo" = []
    ∧ filesUnderAlt [mkFile "1" "Foobar/x.pdf"] "Foo" = []
    ∧ filesUnderApp [mkFile "2" "Foo/x.pdf", mkFile "3" "Foo/Sub/y.pdf"] "Foo"
        = [mkFile "2" "Foo/x.pdf", mkFile "3" "Foo/Sub/y.pdf"]
    ∧ filesUnderAlt [mkFile "2" "Foo/x.pdf", mkFile "3" "Foo/Sub/y.pdf"] "Foo"
        = [mkFile "2" "Foo/x.pdf", mkFile "3" "Foo/Sub/y.pdf"]
    ∧ filesUnderApp [fooExact] "Foo" = []
    ∧ filesUnderAlt [fooExact] "Foo" = [fooExact] := by
  refine ⟨?_, ?_, by decide, by decide, by decide, by decide, by decide, by decide⟩
  · intro files p f
    simp [filesUnderApp, List.mem_filter]
  · intro files p f
    simp [filesUnderAlt, List.mem_filter]

/-- C3 (counterexample): reordering an input carrying two records with the
same path changes the output forest — the collapsed file node keeps the
`fileId` of whichever record sorts first, and the stable sort preserves input
order between equal paths. -/
theorem c3_counterexample :
    ([dupB, dupA]).Perm [dupA, dupB]
      ∧ buildTree [dupA, dupB] ≠ buildTree [dupB, dupA] := by
  constructor
  · exact List.Perm.swap dupA dupB []
  · intro h
    have h1 : (buildTree [dupA, dupB]).map TreeNode.fileId = [some "id1"] := by
      decide
    have h2 : (buildTree [dupB, dupA]).map TreeNode.fileId = [some "id2"] := by
      decide
    rw [h, h2] at h1
    simp at h1

/-- C3 (amended): for inputs whose raw paths are pairwise distinct, running
the tree projector on any permutation of the input yields a structurally
identical forest. -/
theorem c3_perm_invariant_distinct_paths {l₁ l₂ : List StoredFile}
    (hp : l₁.Perm l₂) (hnd : (l₁.map StoredFile.path).Nodup) :
    buildTree l₁ = buildTree l₂ :=
  buildTree_perm_eq hp hnd

theorem c3_witness :
    ([mkFile "1" "a.pdf", mkFile "2" "b.pdf"]).Perm
        [mkFile "2" "b.pdf", mkFile "1" "a.pdf"]
    ∧ (([mkFile "1" "a.pdf", mkFile "2" "b.pdf"]).map StoredFile.path).Nodup
    ∧ buildTree [mkFile "1" "a.pdf", mkFile "2" "b.pdf"]
        = buildTree [mkFile "2" "b.pdf", mkFile "1" "a.pdf"] :=
  ⟨List.Perm.swap (mkFile "2" "b.pdf") (mkFile "1" "a.pdf") [],
   by decide,
   c3_perm_invariant_distinct_paths
     (List.Perm.swap (mkFile "2" "b.pdf") (mkFile "1" "a.pdf") []) (by decide)⟩

/-- C4 (counterexample): a doubled slash is not collapsed — the path
`"a//b.pdf"` produces a folder node whose name is the empty string. -/
theorem c4_counterexample :
    "" ∈ namesForest (buildTree [mkFile "1" "a//b.pdf"]) := by decide

/-- C4 (amended): the projector strips only a single leading slash before
splitting; it does not collapse doubled slashes or skip empty segments.
Hence the forest has no empty-named node exactly when no record's normalized
path splits into an empty segment (in particular a single leading `/` is
harmless), while a path with `//` yields an empty-named folder node. -/
theorem c4_no_empty_names (files : List StoredFile)
    (h : ∀ f ∈ files, "" ∉ partsOf f) :
    ∀ x ∈ namesForest (buildTree files), x ≠ "" := by
  intro x hx he
  subst he
  obtain ⟨f, hf, hxf⟩ := names_buildTree files "" hx
  exact h f hf hxf

theorem c4_witness :
    (∀ f ∈ [mkFile "1" "/a.pdf", mkFile "2" "Docs/b.pdf"], "" ∉ partsOf f)
    ∧ "" ∉ namesForest (buildTree [mkFile "1" "/a.pdf", mkFile "2" "Docs/b.pdf"]) :=
  ⟨by decide, fun hmem => c4_no_empty_names _ (by decide) "" hmem rfl⟩

/-- C5: in every children list of the forest produced by `buildTree` (and
among the roots), the `sortNodes` order holds pairwise: folder-kind nodes
precede file-kind nodes, and within equal kinds names ascend in the
case-sensitive code-point order of `localeCompare`. -/
theorem c5_children_sorted (files : List StoredFile) :
    wsForest (buildTree files) = true
    ∧ ∀ a b : TreeNode, nodeLe a b ↔
        ((a.kind = .folder ∧ b.kind = .file)
          ∨ (a.kind = b.kind ∧ localeCompare a.name b.name ≤ 0)) := by
  constructor
  · unfold buildTree
    exact wsForest_sortChildren _
  · intro a b
    rw [nodeLe_iff, localeCompare_le_zero]
    constructor
    · rintro (⟨hk, hn⟩ | ⟨hk, hf⟩)
      · exact Or.inr ⟨hk, hn⟩
      · refine Or.inl ⟨hf, ?_⟩
        cases hbk : b.kind with
        | folder => exact absurd (hf.trans hbk.symm) hk
        | file => rfl
    · rintro (⟨hf, hb⟩ | ⟨hk, hn⟩)
      · refine Or.inr ⟨?_, hf⟩
        rw [hf, hb]
        simp
      · exact Or.inl ⟨hk, hn⟩

/-- C6: at most one `ReadingProgress` record per `fileId`: both the keyed
`put` of the IndexedDB service and the in-memory `handlePageChange` updater
create a record when none exists and replace (never duplicate) the record
when one exists, keeping keys unique and exactly one record for the written
id. -/
theorem c6_upsert_unique (store prev : List ReadingHistory) (fid : String)
    (page total now : Nat) (tp : Option Nat)
    (hstore : (store.map ReadingHistory.fileId).Nodup)
    (hprev : (prev.map ReadingHistory.fileId).Nodup) :
    ((updateHistory store fid page tp now).countP
        (fun h => decide (h.fileId = fid)) = 1
      ∧ ((updateHistory store fid page tp now).map ReadingHistory.fileId).Nodup
      ∧ (fid ∉ store.map ReadingHistory.fileId →
          updateHistory store fid page tp now = store ++ [⟨fid, page, now, tp⟩])
      ∧ (fid ∈ store.map ReadingHistory.fileId →
          (updateHistory store fid page tp now).length = store.length))
    ∧ ((updateHistoryState prev fid page total now).countP
        (fun h => decide (h.fileId = fid)) = 1
      ∧ ((updateHistoryState prev fid page total now).map
          ReadingHistory.fileId).Nodup
      ∧ (fid ∉ prev.map ReadingHistory.fileId →
          updateHistoryState prev fid page total now
            = prev ++ [⟨fid, page, now, some total⟩])
      ∧ (fid ∈ prev.map ReadingHistory.fileId →
          (updateHistoryState prev fid page total now).length = prev.length)) := by
  constructor
  · refine ⟨?_, ?_, ?_, ?_⟩
    · exact dbPutHistory_countP ⟨fid, page, now, tp⟩ store hstore
    · exact dbPutHistory_keys_nodup _ _ hstore
    · intro hnm
      exact dbPutHistory_of_not_mem _ _ hnm
    · intro hm
      exact dbPutHistory_length_of_mem _ _ hm
  · rw [updateHistoryState_eq_dbPut]
    refine ⟨?_, ?_, ?_, ?_⟩
    · exact dbPutHistory_countP ⟨fid, page, now, some total⟩ prev hprev
    · exact dbPutHistory_keys_nodup _ _ hprev
    · intro hnm
      exact dbPutHistory_of_not_mem _ _ hnm
    · intro hm
      exact dbPutHistory_length_of_mem _ _ hm

theorem c6_witness :
    (([⟨"a", 1, 0, none⟩] : List ReadingHistory).map ReadingHistory.fileId).Nodup
    ∧ (updateHistory [⟨"a", 1, 0, none⟩] "a" 5 (some 9) 7).countP
        (fun h => decide (h.fileId = "a")) = 1
    ∧ (updateHistoryState [] "a" 5 9 7).countP
        (fun h => decide (h.fileId = "a")) = 1 :=
  ⟨by decide,
   (c6_upsert_unique [⟨"a", 1, 0, none⟩] [] "a" 5 9 7 (some 9)
     (by decide) (by decide)).1.1,
   (c6_upsert_unique [⟨"a", 1, 0, none⟩] [] "a" 5 9 7 (some 9)
     (by decide) (by decide)).2.1⟩

/-- C7: delete-by-id removes exactly the record with the deleted id from the
in-memory file list, removes its progress record (others untouched) in both
the in-memory list and the database stores, and clears the active selection
exactly when the deleted file was the open one. -/
theorem c7_delete_by_id (db : DBState) (st : AppState) (x : String)
    (hnd : (st.files.map StoredFile.id).Nodup)
    (hmem : x ∈ st.files.map StoredFile.id) :
    (∀ f : StoredFile, f ∈ (handleFileDelete db st x).2.files
        ↔ f ∈ st.files ∧ f.id ≠ x)
    ∧ (handleFileDelete db st x).2.files.length + 1 = st.files.length
    ∧ (∀ h : ReadingHistory, h ∈ (handleFileDelete db st x).2.history
        ↔ h ∈ st.history ∧ h.fileId ≠ x)
    ∧ (handleFileDelete db st x).2.activeFileId
        = (if st.activeFileId = some x then none else st.activeFileId)
    ∧ (∀ f : StoredFile, f ∈ (handleFileDelete db st x).1.dbFiles
        ↔ f ∈ db.dbFiles ∧ f.id ≠ x)
    ∧ (∀ h : ReadingHistory, h ∈ (handleFileDelete db st x).1.dbHistory
        ↔ h ∈ db.dbHistory ∧ h.fileId ≠ x) := by
  refine ⟨?_, ?_, ?_, rfl, ?_, ?_⟩
  · intro f
    simp [handleFileDelete, List.mem_filter]
  · exact filter_ne_id_length x st.files hnd hmem
  · intro h
    simp [handleFileDelete, List.mem_filter]
  · intro f
    simp [handleFileDelete, dbDeleteFile, List.mem_filter]
  · intro h
    simp [handleFileDelete, dbDeleteFile, List.mem_filter]

def wDB : DBState :=
  ⟨[mkFile "1" "a.pdf", mkFile "2" "b.pdf"],
   [⟨"1", 3, 0, some 9⟩, ⟨"2", 1, 0, none⟩]⟩

def wSt : AppState :=
  ⟨[mkFile "1" "a.pdf", mkFile "2" "b.pdf"],
   [⟨"1", 3, 0, some 9⟩, ⟨"2", 1, 0, none⟩], some "1"⟩

theorem c7_witness :
    (wSt.files.map StoredFile.id).Nodup
    ∧ "1" ∈ wSt.files.map StoredFile.id
    ∧ (handleFileDelete wDB wSt "1").2.files.length + 1 = wSt.files.length
    ∧ (handleFileDelete wDB wSt "1").2.activeFileId
        = (if wSt.activeFileId = some "1" then none else wSt.activeFileId) :=
  ⟨by decide, by decide,
   (c7_delete_by_id wDB wSt "1" (by decide) (by decide)).2.1,
   (c7_delete_by_id wDB wSt "1" (by decide) (by decide)).2.2.2.1⟩

def cFail : String → Bool := fun id => id == "1"

def c8Files : List StoredFile := [mkFile "1" "Foo/a.pdf", mkFile "2" "Foo/b.pdf"]

def c8DB : DBState := ⟨c8Files, []⟩

def c8St : AppState := ⟨c8Files, [], none⟩

/-- C8 (counterexample): in the alternate shell's delete-by-folder loop, a
rejection of the first matched file's `deleteFile` aborts the loop: the
second matched file is never attempted. -/
theorem c8_counterexample :
    (filesUnderAlt c8St.files "Foo").map StoredFile.id = ["1", "2"]
    ∧ (handleFolderDeleteAlt cFail c8DB c8St "Foo").2 = ["1"] :=
  ⟨by decide, by decide⟩

/-- C8 (amended): in `src/App.tsx` every matched file's deletion is attempted
whatever fails, because each `handleFileDelete` catches its own error; in the
alternate shell the loop has no error handling, so a failing deletion aborts
the remaining ones. -/
theorem c8_deletions (fails : String → Bool) (db : DBState) (st : AppState)
    (p : String) (f : StoredFile) (fs : List StoredFile)
    (hfail : fails f.id = true) :
    (handleFolderDeleteApp fails db st p).2.2
        = (filesUnderApp st.files p).map StoredFile.id
    ∧ (deleteLoopAlt fails db (f :: fs)).2 = [f.id] := by
  constructor
  · unfold handleFolderDeleteApp
    rw [folderDelete_fold_attempted]
    simp
  · simp [deleteLoopAlt, hfail]

theorem c8_witness :
    cFail (mkFile "1" "Foo/a.pdf").id = true
    ∧ (handleFolderDeleteApp cFail c8DB c8St "Foo").2.2
        = (filesUnderApp c8St.files "Foo").map StoredFile.id
    ∧ (deleteLoopAlt cFail c8DB
        [mkFile "1" "Foo/a.pdf", mkFile "2" "Foo/b.pdf"]).2
        = [(mkFile "1" "Foo/a.pdf").id] :=
  ⟨by decide,
   (c8_deletions cFail c8DB c8St "Foo" (mkFile "1" "Foo/a.pdf")
     [mkFile "2" "Foo/b.pdf"] (by decide)).1,
   (c8_deletions cFail c8DB c8St "Foo" (mkFile "1" "Foo/a.pdf")
     [mkFile "2" "Foo/b.pdf"] (by decide)).2⟩

def wReq : AIAnalysisRequest := ⟨none, none, "What is this page about?"⟩

/-- C9: on any failure path (falsy `API_KEY` or a thrown provider error) the
AI adapter returns a string starting with the error indicator `"Error:"`, and
the chat view appends that returned string as the model's reply — the turn
stays in the transcript. -/
theorem c9_error_string_rendered (apiKey : Option String) (outcome : ApiOutcome)
    (req : AIAnalysisRequest) (messages : List ChatMessage) (input : String)
    (uid mid : String) (now : Nat)
    (hfail : apiFailed apiKey outcome = true)
    (hfresh : ∀ m ∈ messages, m.id ≠ mid) (huid : uid ≠ mid)
    (hinput : jsTrim input ≠ "") :
    jsStartsWith (generateAIResponse apiKey outcome req) "Error:" = true
    ∧ handleSend messages input false uid mid now
        (generateAIResponse apiKey outcome req)
      = messages
        ++ [⟨uid, "user", input, none, now⟩,
            ⟨mid, "model", generateAIResponse apiKey outcome req,
             some false, now⟩] :=
  ⟨generateAIResponse_error_onFailure apiKey outcome req hfail,
   handleSend_appends_reply messages input uid mid now _ hfresh huid hinput⟩

theorem c9_witness :
    apiFailed none (ApiOutcome.thrown (some "network down")) = true
    ∧ jsStartsWith
        (generateAIResponse none (ApiOutcome.thrown (some "network down")) wReq)
        "Error:" = true
    ∧ handleSend [] "hi" false "u1" "m1" 5
        (generateAIResponse none (ApiOutcome.thrown (some "network down")) wReq)
      = [⟨"u1", "user", "hi", none, 5⟩,
         ⟨"m1", "model",
          generateAIResponse none (ApiOutcome.thrown (some "network down")) wReq,
          some false, 5⟩] := by
  refine ⟨by decide, ?_, ?_⟩
  · exact (c9_error_string_rendered none (ApiOutcome.thrown (some "network down"))
      wReq [] "hi" "u1" "m1" 5 (by decide) (by intro m hm; cases hm)
      (by decide) (by decide)).1
  · have h := (c9_error_string_rendered none
      (ApiOutcome.thrown (some "network down")) wReq [] "hi" "u1" "m1" 5
      (by decide) (by intro m hm; cases hm) (by decide) (by decide)).2
    simpa using h

/-- C10: the reader's page number after any page-change request is clamped to
`1 .. (numPages || 1)`; a `+1` request at the last page and a `-1` request at
page 1 leave the page unchanged; the `(page, total)` pair reported to the
progress callback carries exactly the clamped value; an unknown total counts
as 1; and any sequence of requests keeps the page in range. -/
theorem c10_page_clamped (numPages : Option Nat) (prev offset first start : Int)
    (offsets : List Int) :
    (1 ≤ changePage numPages prev offset
      ∧ changePage numPages prev offset ≤ (totalOrOne numPages : Int))
    ∧ changePage numPages (totalOrOne numPages : Int) 1 = (totalOrOne numPages : Int)
    ∧ changePage numPages 1 (-1) = 1
    ∧ changePageReport numPages prev offset
        = (changePage numPages prev offset, (totalOrOne numPages : Int))
    ∧ totalOrOne none = 1
    ∧ (1 ≤ (first :: offsets).foldl (changePage numPages) start
      ∧ (first :: offsets).foldl (changePage numPages) start
        ≤ (totalOrOne numPages : Int)) := by
  have ht : (1 : Int) ≤ (totalOrOne numPages : Int) := by
    exact_mod_cast totalOrOne_pos numPages
  refine ⟨changePage_bounds _ _ _, ?_, ?_, rfl, rfl,
    foldl_changePage_bounds _ _ _ _⟩
  · unfold changePage
    rw [max_eq_right (by omega), min_eq_right (by omega)]
  · unfold changePage
    rw [max_eq_left (by omega), min_eq_left ht]

/-! Final sanity check: the four-record scenario produces two root folders
(`Docs`, `Docs2`) before the root file `a.pdf`, with the expected subtrees. -/

example :
    (buildTree [mkFile "1" "a.pdf", mkFile "2" "Docs/b.pdf",
      mkFile "3" "Docs/Sub/c.pdf", mkFile "4" "Docs2/d.pdf"]).map TreeNode.name
      = ["Docs", "Docs2", "a.pdf"] := by decide

example :
    ((buildTree [mkFile "1" "a.pdf", mkFile "2" "Docs/b.pdf",
      mkFile "3" "Docs/Sub/c.pdf", mkFile "4" "Docs2/d.pdf"]).map
        (fun n => n.children.map TreeNode.name))
      = [["Sub", "b.pdf"], ["d.pdf"], []] := by decide
